import Mathlib

/-!
Verification of the Modelfile directive scanner (`parser.go`, package
`parser`).

The Go source is a rune-by-rune state machine.  We embed it shallowly:

* runes become `Char`, the input stream becomes a `List Char` (the `bufio`
  reader delivers decoded runes one at a time; end of stream is the empty
  list);
* Go `string` buffers (`bytes.Buffer` and `Command.Name`/`Command.Args`)
  become `List Char`;
* the fallible result `([]Command, error)` becomes
  `Except ParseError (List Command)`; the distinct error values produced by
  the source keep their exact message text via `errMsg`;
* `Command`'s embedded `bytes.Buffer` (the raw consumed text, written by
  `cmd.WriteRune(r)`) is dropped from the record: it never influences
  control flow nor the returned data, and the repository's own tests
  compare commands ignoring that field.  The `WriteRune` error checks in
  the source are unreachable for decoded runes and are likewise dropped.
-/

namespace Modelfile

/-- One parsed record: the Go `Command` struct (its `Name` and `Args`
string fields; the embedded diagnostic `bytes.Buffer` is not modelled). -/
structure Command where
  Name : List Char := []
  Args : List Char := []
deriving Repr, DecidableEq

/-- The scanner states, `stateName = iota ...` in the source.  The `iota`
numbering (used only in the `unexpected rune ... for state %d` message) is
recovered by `St.idx`. -/
inductive St
| name
| args
| multiline
| parameter
| message
| comment
deriving Repr, DecidableEq

/-- The `iota` value of each state constant in the source. -/
def St.idx : St → Nat
| .name => 0
| .args => 1
| .multiline => 2
| .parameter => 3
| .message => 4
| .comment => 5

/-- The distinct error values `Parse` can return, one constructor per
`errors.New` / `fmt.Errorf` site in the source; `errMsg` renders the exact
message text. -/
inductive ParseError
| missingValue (partialTok : List Char)
| unexpectedRune (r : Char) (state : Nat)
| invalidRole
| unterminatedMultiline
| noFromLine
deriving Repr, DecidableEq

/-- Go `func alpha(r rune) bool { return r >= 'a' && r <= 'z' || r >= 'A' && r <= 'Z' }`. -/
def alpha (r : Char) : Bool :=
  decide ('a' ≤ r ∧ r ≤ 'z') || decide ('A' ≤ r ∧ r ≤ 'Z')

/-- Go `func number(r rune) bool { return r >= '0' && r <= '9' }`. -/
def number (r : Char) : Bool :=
  decide ('0' ≤ r ∧ r ≤ '9')

/-- Go `func space(r rune) bool { return r == ' ' || r == '\t' }`. -/
def space (r : Char) : Bool :=
  r == ' ' || r == '\t'

/-- Go `func newline(r rune) bool { return r == '\r' || r == '\n' }`. -/
def newline (r : Char) : Bool :=
  r == '\r' || r == '\n'

/-- Go `func quote(r rune) bool { return r == '"' || r == '\'' }`.
(Defined in the source but only referenced from commented-out `TODO`
cases; kept for completeness.) -/
def quote (r : Char) : Bool :=
  r == '"' || r == '\''

/-- Go `func isValidRole(role string) bool`. -/
def isValidRole (role : List Char) : Bool :=
  role == ("system".data) || role == ("user".data) || role == ("assistant".data)

/-- Go `strings.ToLower`, restricted to per-character lowering.  The
scanner only ever lowercases buffers built from `alpha`/`number`/`'_'`
characters (ASCII), on which Go's Unicode lowering and per-`Char`
`Char.toLower` agree. -/
def toLower (s : List Char) : List Char :=
  s.map Char.toLower

/-- The exact Go message text of each error value.  For
`unexpectedRune`, Go renders the rune with `%q` (a quoted character
literal); we render the unquoted-escape form, which coincides with `%q`
for printable non-escape runes.  No claim depends on this message. -/
def errMsg : ParseError → List Char
| .missingValue partialTok => ("missing value for [".data) ++ partialTok ++ ("]".data)
| .unexpectedRune r state =>
    ("unexpected rune '".data) ++ [r] ++ ("' for state ".data) ++ (Nat.repr state).data
| .invalidRole => ("role must be one of \"system\", \"user\", or \"assistant\"".data)
| .unterminatedMultiline => ("unterminated multiline string".data)
| .noFromLine => ("no FROM line".data)

/-- Result of one iteration of the scanning loop body: either an early
`return nil, err`, or the updated loop variables `(s, b, cmd, cmds)`. -/
inductive StepRes
| err (e : ParseError)
| cont (s : St) (b : List Char) (cmd : Command) (cmds : List Command)
deriving Repr, DecidableEq

/-- The body of the `for` loop in `Parse` (the `switch s` over the current
state), acting on one rune `r`.  Branch order mirrors the Go `switch`
cases exactly. -/
def step (s : St) (b : List Char) (cmd : Command) (cmds : List Command) (r : Char) : StepRes :=
  match s with
  | .name =>
    if alpha r || number r then
      .cont .name (b ++ [r]) cmd cmds
    else if r == '#' then
      .cont .comment b cmd cmds
    else if space r then
      if b.length > 0 then
        let nm := toLower b
        let nm := if nm = ("from".data) then ("model".data) else nm
        if nm = ("parameter".data) then .cont .parameter [] { cmd with Name := nm } cmds
        else if nm = ("message".data) then .cont .message [] { cmd with Name := nm } cmds
        else .cont .args [] { cmd with Name := nm } cmds
      else
        .cont .name b cmd cmds
    else if newline r then
      if b.length > 0 then .err (.missingValue b)
      else .cont .name b cmd cmds
    else
      .err (.unexpectedRune r St.name.idx)
  | .parameter =>
    if alpha r || number r || r == '_' then
      .cont .parameter (b ++ [r]) cmd cmds
    else if space r then
      .cont .args [] { cmd with Name := toLower b } cmds
    else if newline r then
      .err (.missingValue b)
    else
      .err (.unexpectedRune r St.parameter.idx)
  | .args =>
    if newline r then
      .cont .name [] {} (cmds ++ [{ cmd with Args := cmd.Args ++ b }])
    else
      .cont .args (b ++ [r]) cmd cmds
  | .multiline =>
    .cont .multiline (b ++ [r]) cmd cmds
  | .message =>
    if space r then
      if isValidRole b then
        .cont .args [] { cmd with Args := cmd.Args ++ b ++ (": ".data) } cmds
      else
        .err .invalidRole
    else if newline r then
      .err (.missingValue b)
    else
      .cont .message (b ++ [r]) cmd cmds
  | .comment =>
    if newline r then
      .cont .name [] {} cmds
    else
      .cont .comment b cmd cmds

/-- The `// handle trailing buffer` block after the loop: nothing happens
when the buffer is empty; otherwise `stateArgs` finalizes the pending
record (note the source *assigns* `cmd.Args = b.String()` here, it does
not append), `stateMultiline` is the unterminated error, and every other
state reports the partial token. -/
def trailing (s : St) (b : List Char) (cmd : Command) (cmds : List Command) :
    Except ParseError (List Command) :=
  if b.length > 0 then
    match s with
    | .args => .ok (cmds ++ [{ cmd with Args := b }])
    | .multiline => .error .unterminatedMultiline
    | _ => .error (.missingValue b)
  else
    .ok cmds

/-- The scanning loop of `Parse`: consume runes one at a time via `step`
until end of input, then run the trailing-buffer handling. -/
def parseLoop (s : St) (b : List Char) (cmd : Command) (cmds : List Command) :
    List Char → Except ParseError (List Command)
| [] => trailing s b cmd cmds
| r :: rest =>
    match step s b cmd cmds r with
    | .err e => .error e
    | .cont s' b' cmd' cmds' => parseLoop s' b' cmd' cmds' rest

/-- Go `func Parse(r io.Reader) ([]Command, error)`: run the loop from
`stateName` with empty buffers, then scan the commands once for the
canonical base-model name and reject the document if absent. -/
def Parse (input : List Char) : Except ParseError (List Command) :=
  match parseLoop .name [] {} [] input with
  | .error e => .error e
  | .ok cmds =>
      if cmds.any (fun c => c.Name == ("model".data)) then .ok cmds
      else .error .noFromLine

/-!
## The spec-modelled quoted-value scanner

In `src/parser/parser.go` the triple-quote entry/exit logic is stubbed:
the `case quote(r):` arms of `stateArgs` and `stateMultiline` are
commented out as `TODO`, so `stateMultiline` is unreachable — yet the
repository's own test suite (`parser_test.go`, `TestParserMultiline` and
the multiline `MESSAGE` cases) exercises full triple-quote behaviour, and
the specification (§4.1 `Value`/`QuotedValue`, §8) describes it as the
authoritative contract.  The definitions below model that missing logic
from the spec.
-/

/-- Does the list begin with three consecutive double-quote characters? -/
def startsTriple (l : List Char) : Bool :=
  match l with
  | a :: b :: c :: _ => a == '"' && b == '"' && c == '"'
  | _ => false

/-- Does the list contain three consecutive double-quote characters
anywhere? -/
def hasTriple : List Char → Bool
| [] => false
| c :: rest => startsTriple (c :: rest) || hasTriple rest

/-- Modelled from the spec: end-of-input handling with the `QuotedValue`
state wired in (missing from `src/parser/parser.go`, where the quote
cases are `TODO` comments).  Per §4.1: input ending in `QuotedValue` is
always the unterminated-quote error; ending in `Value` with a non-empty
accumulator finalizes the pending record as if a newline had been seen
(the accumulated text is appended to the record's value); ending in
`Name`/`ParameterKey`/`MessageRole` with a non-empty partial buffer is the
missing-value error. -/
def trailingQ (s : St) (b : List Char) (cmd : Command) (cmds : List Command) :
    Except ParseError (List Command) :=
  match s with
  | .multiline => .error .unterminatedMultiline
  | .args =>
      if b.length > 0 then .ok (cmds ++ [{ cmd with Args := cmd.Args ++ b }])
      else .ok cmds
  | _ =>
      if b.length > 0 then .error (.missingValue b)
      else .ok cmds

/-- Modelled from the spec: the scanning loop with the `QuotedValue`
transitions wired in (missing from `src/parser/parser.go`).  Per §4.1: in
`Value`, when no value character has been consumed yet (empty
accumulator, i.e. at entry to the state) and the next three characters
are `"""`, those three are discarded as delimiters and the state becomes
`QuotedValue`; in `QuotedValue` every character — newlines included — is
captured verbatim until a closing `"""`, which is discarded and completes
the record exactly as `Value`'s newline handling does.  All other states
behave as in the source (`step`); in the three-quote branch their
transitions are written fused (three successive `step`s on `'"'`, which
cannot leave the state in question) so that the recursion stays
structural: `Value` with content already captured appends all three
quotes, `MessageRole` appends all three, `Comment` discards all three,
and `Name`/`ParameterKey` fail on `'"'` exactly as `step` does. -/
def parseLoopQ (s : St) (b : List Char) (cmd : Command) (cmds : List Command) :
    List Char → Except ParseError (List Command)
| [] => trailingQ s b cmd cmds
| '"' :: '"' :: '"' :: rest =>
    match s with
    | .args =>
        if b.length = 0 then
          parseLoopQ .multiline [] cmd cmds rest
        else
          parseLoopQ .args (b ++ ['"', '"', '"']) cmd cmds rest
    | .multiline =>
        parseLoopQ .name [] {} (cmds ++ [{ cmd with Args := cmd.Args ++ b }]) rest
    | .message => parseLoopQ .message (b ++ ['"', '"', '"']) cmd cmds rest
    | .comment => parseLoopQ .comment b cmd cmds rest
    | .name => .error (.unexpectedRune '"' St.name.idx)
    | .parameter => .error (.unexpectedRune '"' St.parameter.idx)
| r :: rest =>
    match step s b cmd cmds r with
    | .err e => .error e
    | .cont s' b' cmd' cmds' => parseLoopQ s' b' cmd' cmds' rest

/-- Modelled from the spec: `Parse` with the quoted-value logic wired in —
run the spec-modelled loop, then apply the same whole-document base-model
check as the source. -/
def ParseQ (input : List Char) : Except ParseError (List Command) :=
  match parseLoopQ .name [] {} [] input with
  | .error e => .error e
  | .ok cmds =>
      if cmds.any (fun c => c.Name == ("model".data)) then .ok cmds
      else .error .noFromLine

/-- Replace every LF in a CR-free document with a CRLF pair. -/
def crlf : List Char → List Char
| [] => []
| c :: rest => if c = '\n' then '\r' :: '\n' :: crlf rest else c :: crlf rest

/-- Helper for `noDoubleHWS`: scan with the previous character at hand. -/
def noDoubleAux : Char → List Char → Bool
| _, [] => true
| p, c :: rest => (!(space p && space c)) && noDoubleAux c rest

/-- No two consecutive characters are both horizontal whitespace
(space/tab). -/
def noDoubleHWS : List Char → Bool
| [] => true
| c :: rest => noDoubleAux c rest

/-!
## Sanity checks against the repository's test suite
-/

example : Parse ("FROM foo".data) = .ok [⟨"model".data, "foo".data⟩] := by rfl

example : Parse ("FROM model1\nADAPTER adapter1\nLICENSE MIT\nPARAMETER param1 value1\nTEMPLATE template1\n".data)
    = .ok [⟨"model".data, "model1".data⟩, ⟨"adapter".data, "adapter1".data⟩,
           ⟨"license".data, "MIT".data⟩, ⟨"param1".data, "value1".data⟩,
           ⟨"template".data, "template1".data⟩] := by rfl

example : Parse ("\nPARAMETER param1 value1\n".data) = .error .noFromLine := by rfl

example : Parse ("FROM foo\nPARAMETER param1\n".data)
    = .error (.missingValue ("param1".data)) := by rfl

example : Parse ("FROM foo\nMESSAGE system You are helpful.\n".data)
    = .ok [⟨"model".data, "foo".data⟩, ⟨"message".data, "system: You are helpful.".data⟩] := by rfl

example : Parse ("FROM foo\nMESSAGE badguy hi\n".data) = .error .invalidRole := by rfl

example : Parse ("# comment\nFROM foo\n".data) = .ok [⟨"model".data, "foo".data⟩] := by rfl

-- Double space after PARAMETER yields an empty-named record (see C3).
example : Parse ("FROM a\nPARAMETER  x\n".data)
    = .ok [⟨"model".data, "a".data⟩, ⟨[], "x".data⟩] := by rfl

-- A '#' after accumulated letters is treated as a comment, not an error (see C4).
example : Parse ("FROM a\nTE#MPLATE x\n".data) = .ok [⟨"model".data, "a".data⟩] := by rfl

example : ParseQ ("FROM foo\nTEMPLATE \"\"\"a b\"\"\"\n".data)
    = .ok [⟨"model".data, "foo".data⟩, ⟨"template".data, "a b".data⟩] := by rfl

example : ParseQ ("FROM foo\nTEMPLATE \"\"\"\nThis is a\nmultiline template.\n\"\"\"\n".data)
    = .ok [⟨"model".data, "foo".data⟩,
           ⟨"template".data, "\nThis is a\nmultiline template.\n".data⟩] := by rfl

example : ParseQ ("FROM foo\nTEMPLATE \"\"\"This is a multiline template.\"\"\n".data)
    = .error .unterminatedMultiline := by rfl

example : ParseQ ("FROM foo\nMESSAGE system \"\"\"\nYou are a multiline Parser.\n\"\"\"\n".data)
    = .ok [⟨"model".data, "foo".data⟩,
           ⟨"message".data, "system: \nYou are a multiline Parser.\n".data⟩] := by rfl

example : ParseQ ("FROM foo\nTEMPLATE \"\"\"\nwith \"quotes\".\n\"\"\"\n".data)
    = .ok [⟨"model".data, "foo".data⟩,
           ⟨"template".data, "\nwith \"quotes\".\n".data⟩] := by rfl

/-!
## Unfolding lemmas for the scanning loop
-/

theorem parseLoop_nil (s : St) (b : List Char) (cmd : Command) (cmds : List Command) :
    parseLoop s b cmd cmds [] = trailing s b cmd cmds := rfl

theorem parseLoop_cons (s : St) (b : List Char) (cmd : Command) (cmds : List Command)
    (r : Char) (rest : List Char) :
    parseLoop s b cmd cmds (r :: rest) =
      match step s b cmd cmds r with
      | .err e => .error e
      | .cont s' b' cmd' cmds' => parseLoop s' b' cmd' cmds' rest := rfl

theorem step_name_lf (b : List Char) (cmd : Command) (cmds : List Command) :
    step .name b cmd cmds '\n' =
      if b.length > 0 then .err (.missingValue b) else .cont .name b cmd cmds := rfl

theorem step_name_cr (b : List Char) (cmd : Command) (cmds : List Command) :
    step .name b cmd cmds '\r' =
      if b.length > 0 then .err (.missingValue b) else .cont .name b cmd cmds := rfl

theorem step_name_hash (b : List Char) (cmd : Command) (cmds : List Command) :
    step .name b cmd cmds '#' = .cont .comment b cmd cmds := rfl

theorem step_name_sp (b : List Char) (cmd : Command) (cmds : List Command) :
    step .name b cmd cmds ' ' =
      if b.length > 0 then
        (let nm := toLower b
         let nm := if nm = ("from".data) then ("model".data) else nm
         if nm = ("parameter".data) then .cont .parameter [] { cmd with Name := nm } cmds
         else if nm = ("message".data) then .cont .message [] { cmd with Name := nm } cmds
         else .cont .args [] { cmd with Name := nm } cmds)
      else .cont .name b cmd cmds := rfl

theorem step_name_alnum (b : List Char) (cmd : Command) (cmds : List Command) (r : Char)
    (h : (alpha r || number r) = true) :
    step .name b cmd cmds r = .cont .name (b ++ [r]) cmd cmds := by
  simp [step, h]

theorem step_param_lf (b : List Char) (cmd : Command) (cmds : List Command) :
    step .parameter b cmd cmds '\n' = .err (.missingValue b) := rfl

theorem step_param_cr (b : List Char) (cmd : Command) (cmds : List Command) :
    step .parameter b cmd cmds '\r' = .err (.missingValue b) := rfl

theorem step_args_lf (b : List Char) (cmd : Command) (cmds : List Command) :
    step .args b cmd cmds '\n' =
      .cont .name [] {} (cmds ++ [{ cmd with Args := cmd.Args ++ b }]) := rfl

theorem step_args_cr (b : List Char) (cmd : Command) (cmds : List Command) :
    step .args b cmd cmds '\r' =
      .cont .name [] {} (cmds ++ [{ cmd with Args := cmd.Args ++ b }]) := rfl

theorem step_args_other (b : List Char) (cmd : Command) (cmds : List Command) (r : Char)
    (h : newline r = false) :
    step .args b cmd cmds r = .cont .args (b ++ [r]) cmd cmds := by
  simp [step, h]

theorem step_msg_sp (b : List Char) (cmd : Command) (cmds : List Command) :
    step .message b cmd cmds ' ' =
      if isValidRole b then
        .cont .args [] { cmd with Args := cmd.Args ++ b ++ (": ".data) } cmds
      else .err .invalidRole := rfl

theorem step_msg_lf (b : List Char) (cmd : Command) (cmds : List Command) :
    step .message b cmd cmds '\n' = .err (.missingValue b) := rfl

theorem step_msg_cr (b : List Char) (cmd : Command) (cmds : List Command) :
    step .message b cmd cmds '\r' = .err (.missingValue b) := rfl

theorem step_msg_other (b : List Char) (cmd : Command) (cmds : List Command) (r : Char)
    (hs : space r = false) (hn : newline r = false) :
    step .message b cmd cmds r = .cont .message (b ++ [r]) cmd cmds := by
  simp [step, hs, hn]

theorem step_comment_lf (b : List Char) (cmd : Command) (cmds : List Command) :
    step .comment b cmd cmds '\n' = .cont .name [] {} cmds := rfl

theorem step_comment_cr (b : List Char) (cmd : Command) (cmds : List Command) :
    step .comment b cmd cmds '\r' = .cont .name [] {} cmds := rfl

theorem step_comment_other (b : List Char) (cmd : Command) (cmds : List Command) (r : Char)
    (hn : newline r = false) :
    step .comment b cmd cmds r = .cont .comment b cmd cmds := by
  simp [step, hn]

theorem newline_cases {r : Char} (h : newline r = true) : r = '\r' ∨ r = '\n' := by
  simpa [newline] using h

/-!
## Claims
-/

/-- C6: whenever a directive name, parameter key, or message role has at
least one accumulated character and a newline (CR or LF) or end-of-input
arrives before the separating whitespace, the scan fails with the error
`missing value for [<partial-token>]` carrying exactly the partial token. -/
theorem missing_value_on_incomplete_token
    (b : List Char) (cmd : Command) (cmds : List Command) (r : Char) (rest : List Char)
    (hb : b ≠ []) (hr : newline r = true) :
    parseLoop .name b cmd cmds (r :: rest) = .error (.missingValue b)
    ∧ parseLoop .parameter b cmd cmds (r :: rest) = .error (.missingValue b)
    ∧ parseLoop .message b cmd cmds (r :: rest) = .error (.missingValue b)
    ∧ parseLoop .name b cmd cmds [] = .error (.missingValue b)
    ∧ parseLoop .parameter b cmd cmds [] = .error (.missingValue b)
    ∧ parseLoop .message b cmd cmds [] = .error (.missingValue b)
    ∧ errMsg (.missingValue b) = ("missing value for [".data) ++ b ++ ("]".data) := by
  have hb' : 0 < b.length := List.length_pos.mpr hb
  have hname : parseLoop .name b cmd cmds (r :: rest) = .error (.missingValue b) := by
    rcases newline_cases hr with h | h <;> subst h
    · rw [parseLoop_cons, step_name_cr, if_pos hb']
    · rw [parseLoop_cons, step_name_lf, if_pos hb']
  have hparam : parseLoop .parameter b cmd cmds (r :: rest) = .error (.missingValue b) := by
    rcases newline_cases hr with h | h <;> subst h
    · rw [parseLoop_cons, step_param_cr]
    · rw [parseLoop_cons, step_param_lf]
  have hmsg : parseLoop .message b cmd cmds (r :: rest) = .error (.missingValue b) := by
    rcases newline_cases hr with h | h <;> subst h
    · rw [parseLoop_cons, step_msg_cr]
    · rw [parseLoop_cons, step_msg_lf]
  refine ⟨hname, hparam, hmsg, ?_, ?_, ?_, rfl⟩ <;>
    · rw [parseLoop_nil]
      unfold trailing
      rw [if_pos hb']

/-- C6 witness: `PARAMETER param1` followed by a newline fails with
`missing value for [param1]`. -/
theorem missing_value_on_incomplete_token_witness :
    parseLoop .parameter ("param1".data) {} [] ['\n'] =
      .error (.missingValue ("param1".data)) :=
  (missing_value_on_incomplete_token ("param1".data) {} [] '\n' []
    (by decide) (by decide)).2.1

/-- C7: the base-model check runs once, over the completed command list,
after the whole input has been tokenized: if tokenization succeeds and no
record is named `model`, `Parse` returns the `no FROM line` error (and no
record list); conversely any successful `Parse` result contains a record
named `model`. -/
theorem no_from_line_check (cs : List Char) :
    (∀ cmds, parseLoop .name [] {} [] cs = .ok cmds →
      cmds.any (fun c => c.Name == ("model".data)) = false →
      Parse cs = .error .noFromLine)
    ∧ (∀ cmds, Parse cs = .ok cmds →
      cmds.any (fun c => c.Name == ("model".data)) = true) := by
  constructor
  · intro cmds h hno
    unfold Parse
    rw [h]
    dsimp only
    rw [hno]
    rfl
  · intro cmds h
    unfold Parse at h
    cases heq : parseLoop .name [] {} [] cs with
    | error e => rw [heq] at h; exact absurd h (by simp)
    | ok l =>
        rw [heq] at h
        dsimp only at h
        by_cases hany : l.any (fun c => c.Name == ("model".data)) = true
        · rw [if_pos hany] at h
          cases h
          exact hany
        · rw [if_neg hany] at h
          exact absurd h (by simp)

/-- C7 witness: a fully tokenizable document with no FROM directive is
rejected with `no FROM line`. -/
theorem no_from_line_check_witness :
    Parse ("PARAMETER a b\n".data) = .error .noFromLine :=
  (no_from_line_check ("PARAMETER a b\n".data)).1 [⟨"a".data, "b".data⟩]
    (by rfl) (by rfl)

/-- C9: if input ends in the value state with an empty value accumulator,
the pending record is silently discarded — no record, no error — whereas
the same line terminated by a newline emits a record with an empty value.
Concretely, `FROM foo\nTEMPLATE ` yields only the model record, while
`FROM foo\nTEMPLATE \n` yields a `(template, "")` record as well. -/
theorem eof_empty_value_discards_record :
    (∀ (cmd : Command) (cmds : List Command), parseLoop .args [] cmd cmds [] = .ok cmds)
    ∧ (∀ (cmd : Command) (cmds : List Command),
        parseLoop .args [] cmd cmds ['\n'] = .ok (cmds ++ [cmd]))
    ∧ Parse ("FROM foo\nTEMPLATE ".data) = .ok [⟨"model".data, "foo".data⟩]
    ∧ Parse ("FROM foo\nTEMPLATE \n".data) =
        .ok [⟨"model".data, "foo".data⟩, ⟨"template".data, []⟩] := by
  refine ⟨fun cmd cmds => rfl, fun cmd cmds => ?_, by rfl, by rfl⟩
  rw [parseLoop_cons, step_args_lf]
  simp [parseLoop_nil, trailing]

/-- C4 counterexample: the claim says a `#` encountered after letters have
accumulated into the name buffer makes `Parse` fail; in fact the source's
`stateName` switch sends *any* `#` to `stateComment`, so
`FROM a\nTE#MPLATE x\n` — where `#` follows the letters `TE` — parses
successfully (the `TE` line is swallowed as a comment). -/
theorem hash_after_letters_no_error :
    Parse ("FROM a\nTE#MPLATE x\n".data) = .ok [⟨"model".data, "a".data⟩] := by rfl

/-- C4 (amended): in the directive-name state a `#` switches to comment
handling regardless of whether the name buffer is empty; a `#` after
accumulated letters is not an error — the rest of the line is consumed as
a comment and, at its terminating newline, the partial name buffer and
the pending record are discarded and scanning resumes in the name state. -/
theorem hash_always_comments :
    (∀ (b : List Char) (cmd : Command) (cmds : List Command) (rest : List Char),
      parseLoop .name b cmd cmds ('#' :: rest) = parseLoop .comment b cmd cmds rest)
    ∧ (∀ (line b : List Char) (cmd : Command) (cmds : List Command) (rest : List Char),
      (∀ c ∈ line, newline c = false) →
      parseLoop .comment b cmd cmds (line ++ '\n' :: rest) =
        parseLoop .name [] {} cmds rest) := by
  constructor
  · intro b cmd cmds rest
    rw [parseLoop_cons, step_name_hash]
  · intro line
    induction line with
    | nil =>
        intro b cmd cmds rest _
        rw [List.nil_append, parseLoop_cons, step_comment_lf]
    | cons c line ih =>
        intro b cmd cmds rest hc
        have hcn : newline c = false := hc c (List.mem_cons_self c line)
        rw [List.cons_append, parseLoop_cons, step_comment_other _ _ _ _ hcn]
        exact ih b cmd cmds rest (fun d hd => hc d (List.mem_cons_of_mem c hd))

/-- C4 witness: a comment line `x` ending in a newline, entered with the
partial name `TE` pending, discards the buffer and pending record. -/
theorem hash_always_comments_witness :
    parseLoop .comment ("TE".data) {} [] ("x\n".data) = parseLoop .name [] {} [] [] :=
  hash_always_comments.2 ("x".data) ("TE".data) {} [] [] (by decide)

theorem msg_accum (w : List Char) :
    ∀ (b : List Char) (cmd : Command) (cmds : List Command) (rest : List Char),
      (∀ c ∈ w, space c = false ∧ newline c = false) →
      parseLoop .message b cmd cmds (w ++ rest) = parseLoop .message (b ++ w) cmd cmds rest := by
  induction w with
  | nil => intro b cmd cmds rest _; simp
  | cons c w ih =>
      intro b cmd cmds rest hc
      have h1 := hc c (List.mem_cons_self c w)
      rw [List.cons_append, parseLoop_cons, step_msg_other _ _ _ _ h1.1 h1.2]
      dsimp only
      rw [ih (b ++ [c]) cmd cmds rest (fun d hd => hc d (List.mem_cons_of_mem c hd))]
      simp

theorem args_accum (w : List Char) :
    ∀ (b : List Char) (cmd : Command) (cmds : List Command) (rest : List Char),
      (∀ c ∈ w, newline c = false) →
      parseLoop .args b cmd cmds (w ++ rest) = parseLoop .args (b ++ w) cmd cmds rest := by
  induction w with
  | nil => intro b cmd cmds rest _; simp
  | cons c w ih =>
      intro b cmd cmds rest hc
      rw [List.cons_append, parseLoop_cons,
        step_args_other _ _ _ _ (hc c (List.mem_cons_self c w))]
      dsimp only
      rw [ih (b ++ [c]) cmd cmds rest (fun d hd => hc d (List.mem_cons_of_mem c hd))]
      simp

theorem isValidRole_iff (role : List Char) :
    isValidRole role = true ↔
      role = ("system".data) ∨ role = ("user".data) ∨ role = ("assistant".data) := by
  simp [isValidRole, or_assoc]

/-- C5: in a MESSAGE directive, a role word terminated by horizontal
whitespace must be exactly one of the case-sensitive lowercase literals
`system`, `user`, `assistant`; any other word fails the scan with the
fixed invalid-role error, whose text is
`role must be one of "system", "user", or "assistant"`, while a valid
role yields a record named `message` whose value is the role word,
`": "`, then the rest of the line. -/
theorem message_role_validation :
    (∀ (role content : List Char),
      (∀ c ∈ role, space c = false ∧ newline c = false) →
      (∀ c ∈ content, newline c = false) →
      Parse (("FROM foo\nMESSAGE ".data) ++ (role ++ ' ' :: (content ++ ['\n']))) =
        if role = ("system".data) ∨ role = ("user".data) ∨ role = ("assistant".data)
        then .ok [⟨"model".data, "foo".data⟩,
                  ⟨"message".data, role ++ (": ".data) ++ content⟩]
        else .error .invalidRole)
    ∧ errMsg .invalidRole =
        ("role must be one of \"system\", \"user\", or \"assistant\"".data) := by
  refine ⟨?_, rfl⟩
  intro role content hrole hcontent
  have hpre : ∀ X, parseLoop .name [] {} [] (("FROM foo\nMESSAGE ".data) ++ X) =
      parseLoop .message [] ⟨"message".data, []⟩ [⟨"model".data, "foo".data⟩] X :=
    fun X => rfl
  by_cases hv : isValidRole role = true
  · have hloop : parseLoop .name [] {} []
        (("FROM foo\nMESSAGE ".data) ++ (role ++ ' ' :: (content ++ ['\n']))) =
        .ok [⟨"model".data, "foo".data⟩,
             ⟨"message".data, role ++ (": ".data) ++ content⟩] := by
      rw [hpre, msg_accum role _ _ _ _ hrole, List.nil_append, parseLoop_cons, step_msg_sp,
        if_pos hv]
      dsimp only
      rw [args_accum content _ _ _ _ hcontent, List.nil_append, parseLoop_cons, step_args_lf]
      dsimp only
      rw [parseLoop_nil]
      unfold trailing
      simp
    unfold Parse
    rw [hloop, if_pos ((isValidRole_iff role).mp hv)]
    dsimp only
    rw [if_pos (by simp)]
  · have hloop : parseLoop .name [] {} []
        (("FROM foo\nMESSAGE ".data) ++ (role ++ ' ' :: (content ++ ['\n']))) =
        .error .invalidRole := by
      rw [hpre, msg_accum role _ _ _ _ hrole, List.nil_append, parseLoop_cons, step_msg_sp,
        if_neg hv]
    unfold Parse
    rw [hloop, if_neg (by simpa [isValidRole_iff role] using hv)]

/-- C5 witness: `MESSAGE badrole hi` fails with the invalid-role error. -/
theorem message_role_validation_witness :
    Parse (("FROM foo\nMESSAGE ".data) ++ (("badrole".data) ++ ' ' :: (("hi".data) ++ ['\n']))) =
      .error .invalidRole := by
  have h := message_role_validation.1 ("badrole".data) ("hi".data)
    (by decide) (by decide)
  rw [if_neg (by decide)] at h
  exact h

/-!
## Lowercasing facts
-/

theorem char_toNat_ofNat_valid (n : Nat) (h : n.isValidChar) : (Char.ofNat n).toNat = n := by
  rw [Char.ofNat, dif_pos h]
  rfl

theorem toLower_eq_of_upper (c : Char) (h : c.toNat ≥ 65 ∧ c.toNat ≤ 90) :
    Char.toLower c = Char.ofNat (c.toNat + 32) := by
  simp only [Char.toLower]
  rw [if_pos h]

theorem toLower_eq_of_not_upper (c : Char) (h : ¬(c.toNat ≥ 65 ∧ c.toNat ≤ 90)) :
    Char.toLower c = c := by
  simp only [Char.toLower]
  rw [if_neg h]

theorem toLower_toLower (c : Char) : Char.toLower (Char.toLower c) = Char.toLower c := by
  by_cases h : c.toNat ≥ 65 ∧ c.toNat ≤ 90
  · rw [toLower_eq_of_upper c h]
    have hv : Nat.isValidChar (c.toNat + 32) := Or.inl (by omega)
    have ht : (Char.ofNat (c.toNat + 32)).toNat = c.toNat + 32 :=
      char_toNat_ofNat_valid _ hv
    exact toLower_eq_of_not_upper _ (by rw [ht]; omega)
  · rw [toLower_eq_of_not_upper c h, toLower_eq_of_not_upper c h]

theorem toLower_idem (l : List Char) : toLower (toLower l) = toLower l := by
  induction l with
  | nil => rfl
  | cons c l ih =>
      simp only [toLower, List.map_cons] at ih ⊢
      rw [toLower_toLower c, ih]

theorem canonName_lowered (b : List Char) :
    toLower (if toLower b = ("from".data) then ("model".data) else toLower b)
      = (if toLower b = ("from".data) then ("model".data) else toLower b) := by
  split
  · decide
  · exact toLower_idem b

/-- One loop iteration preserves "every finished name, and the pending
record's name, is a lowercase fixed point of `toLower`". -/
theorem step_preserves_lowered (s : St) (b : List Char) (cmd : Command) (cmds : List Command)
    (r : Char) (s' : St) (b' : List Char) (cmd' : Command) (cmds' : List Command)
    (hcmd : toLower cmd.Name = cmd.Name)
    (hcmds : ∀ rec ∈ cmds, toLower rec.Name = rec.Name)
    (hstep : step s b cmd cmds r = .cont s' b' cmd' cmds') :
    toLower cmd'.Name = cmd'.Name ∧ ∀ rec ∈ cmds', toLower rec.Name = rec.Name := by
  cases s <;> simp only [step] at hstep
  case name =>
    split at hstep
    · cases hstep; exact ⟨hcmd, hcmds⟩
    split at hstep
    · cases hstep; exact ⟨hcmd, hcmds⟩
    split at hstep
    · split at hstep
      · split at hstep
        · rw [if_neg (by decide), if_neg (by decide)] at hstep
          cases hstep
          refine ⟨?_, hcmds⟩
          show toLower ("model".data) = ("model".data)
          decide
        · split at hstep
          · cases hstep; exact ⟨toLower_idem b, hcmds⟩
          split at hstep
          · cases hstep; exact ⟨toLower_idem b, hcmds⟩
          · cases hstep; exact ⟨toLower_idem b, hcmds⟩
      · cases hstep; exact ⟨hcmd, hcmds⟩
    split at hstep
    · split at hstep
      · cases hstep
      · cases hstep; exact ⟨hcmd, hcmds⟩
    · cases hstep
  case parameter =>
    split at hstep
    · cases hstep; exact ⟨hcmd, hcmds⟩
    split at hstep
    · cases hstep; exact ⟨toLower_idem b, hcmds⟩
    split at hstep
    · cases hstep
    · cases hstep
  case args =>
    split at hstep
    · cases hstep
      refine ⟨by decide, ?_⟩
      intro rec hrec
      rcases List.mem_append.mp hrec with h | h
      · exact hcmds rec h
      · rcases List.mem_singleton.mp h with rfl
        exact hcmd
    · cases hstep; exact ⟨hcmd, hcmds⟩
  case multiline =>
    cases hstep; exact ⟨hcmd, hcmds⟩
  case message =>
    split at hstep
    · split at hstep
      · cases hstep; exact ⟨hcmd, hcmds⟩
      · cases hstep
    split at hstep
    · cases hstep
    · cases hstep; exact ⟨hcmd, hcmds⟩
  case comment =>
    split at hstep
    · cases hstep; exact ⟨by decide, hcmds⟩
    · cases hstep; exact ⟨hcmd, hcmds⟩

/-- If the whole scan succeeds, every record name is a `toLower` fixed
point. -/
theorem loop_names_lowered (cs : List Char) :
    ∀ (s : St) (b : List Char) (cmd : Command) (cmds out : List Command),
      toLower cmd.Name = cmd.Name →
      (∀ rec ∈ cmds, toLower rec.Name = rec.Name) →
      parseLoop s b cmd cmds cs = .ok out →
      ∀ rec ∈ out, toLower rec.Name = rec.Name := by
  induction cs with
  | nil =>
      intro s b cmd cmds out hcmd hcmds h
      rw [parseLoop_nil] at h
      unfold trailing at h
      split at h
      · split at h
        · cases h
          intro rec hrec
          rcases List.mem_append.mp hrec with hm | hm
          · exact hcmds rec hm
          · rcases List.mem_singleton.mp hm with rfl
            exact hcmd
        · cases h
        · cases h
      · cases h
        exact hcmds
  | cons r rest ih =>
      intro s b cmd cmds out hcmd hcmds h
      rw [parseLoop_cons] at h
      cases hstep : step s b cmd cmds r with
      | err e => rw [hstep] at h; cases h
      | cont s' b' cmd' cmds' =>
          rw [hstep] at h
          dsimp only at h
          obtain ⟨hcmd', hcmds'⟩ :=
            step_preserves_lowered s b cmd cmds r s' b' cmd' cmds' hcmd hcmds hstep
          exact ih s' b' cmd' cmds' out hcmd' hcmds' h

/-- A successful `Parse` result is exactly the scanning loop's result (the
base-model check only filters, it never alters the list). -/
theorem Parse_ok_loop (cs : List Char) (out : List Command) (h : Parse cs = .ok out) :
    parseLoop .name [] {} [] cs = .ok out := by
  unfold Parse at h
  cases heq : parseLoop .name [] {} [] cs with
  | error e => rw [heq] at h; cases h
  | ok l =>
      rw [heq] at h
      dsimp only at h
      split at h
      · cases h; rfl
      · cases h

/-- C8: directive keywords are case-insensitive — every completed record's
name is already lowercase (`toLower` fixes it), a name buffer whose
lowercase form is `from` (so `FROM` in any letter case) is finalized as
the canonical name `model` and routed to the value state, and the
document `FROM x` — with or without a trailing newline — produces exactly
the single record `(model, x)`. -/
theorem keywords_case_insensitive :
    (∀ (cs : List Char) (out : List Command), Parse cs = .ok out →
      ∀ rec ∈ out, toLower rec.Name = rec.Name)
    ∧ (∀ (b : List Char) (cmd : Command) (cmds : List Command) (rest : List Char),
        toLower b = ("from".data) →
        parseLoop .name b cmd cmds (' ' :: rest) =
          parseLoop .args [] { cmd with Name := ("model".data) } cmds rest)
    ∧ Parse ("FROM x".data) = .ok [⟨"model".data, "x".data⟩]
    ∧ Parse ("FROM x\n".data) = .ok [⟨"model".data, "x".data⟩]
    ∧ Parse ("fRoM x".data) = .ok [⟨"model".data, "x".data⟩] := by
  refine ⟨?_, ?_, by rfl, by rfl, by rfl⟩
  · intro cs out h
    exact loop_names_lowered cs .name [] {} [] out (by rfl) (by simp)
      (Parse_ok_loop cs out h)
  · intro b cmd cmds rest hfrom
    have hb : b ≠ [] := by
      intro hnil
      rw [hnil] at hfrom
      exact absurd hfrom (by decide)
    rw [parseLoop_cons, step_name_sp, if_pos (List.length_pos.mpr hb)]
    dsimp only
    rw [hfrom]
    rw [if_pos rfl, if_neg (by decide), if_neg (by decide)]

/-- C8 witness: lowering the buffer `FROM` gives `from`, so finalizing it
at a space yields the canonical name `model` and the value state. -/
theorem keywords_case_insensitive_witness :
    parseLoop .name ("FROM".data) {} [] (' ' :: []) =
      parseLoop .args [] { Command.mk [] [] with Name := ("model".data) } [] [] :=
  keywords_case_insensitive.2.1 ("FROM".data) ⟨[], []⟩ [] [] (by decide)

/-!
## Non-empty record names
-/

theorem noDoubleHWS_cons (a : Char) (cs : List Char) (h : noDoubleHWS (a :: cs) = true) :
    noDoubleHWS cs = true := by
  cases cs with
  | nil => rfl
  | cons b cs' =>
      simp only [noDoubleHWS, noDoubleAux, Bool.and_eq_true] at h ⊢
      exact h.2

theorem noDoubleHWS_two (a b : Char) (cs : List Char)
    (h : noDoubleHWS (a :: b :: cs) = true) (ha : space a = true) : space b = false := by
  simp only [noDoubleHWS, noDoubleAux, Bool.and_eq_true, Bool.not_eq_true',
    Bool.and_eq_false_iff] at h
  rcases h.1 with h1 | h1
  · rw [ha] at h1; cases h1
  · exact h1

theorem toLower_ne_nil (b : List Char) (hb : b ≠ []) : toLower b ≠ [] := by
  intro h
  exact hb (List.map_eq_nil_iff.mp h)

/-- One loop iteration preserves "every finished name is non-empty",
provided the pending parameter key cannot be finalized empty (encoded by
the last conjunct: reaching the parameter state with an empty buffer is
only possible when the character just consumed was horizontal
whitespace). -/
theorem step_preserves_nonempty (s : St) (b : List Char) (cmd : Command) (cmds : List Command)
    (r : Char) (s' : St) (b' : List Char) (cmd' : Command) (cmds' : List Command)
    (hargs : (s = .args ∨ s = .message) → cmd.Name ≠ [])
    (hparcur : s = .parameter → b = [] → space r = false)
    (hcmds : ∀ rec ∈ cmds, rec.Name ≠ [])
    (hstep : step s b cmd cmds r = .cont s' b' cmd' cmds') :
    ((s' = .args ∨ s' = .message) → cmd'.Name ≠ [])
    ∧ (∀ rec ∈ cmds', rec.Name ≠ [])
    ∧ (s' = .parameter → b' = [] → space r = true) := by
  cases s <;> simp only [step] at hstep
  case name =>
    split at hstep
    · cases hstep
      exact ⟨fun h => by rcases h with h | h <;> exact absurd h (by decide), hcmds,
        fun h => absurd h (by decide)⟩
    split at hstep
    · cases hstep
      exact ⟨fun h => by rcases h with h | h <;> exact absurd h (by decide), hcmds,
        fun h => absurd h (by decide)⟩
    split at hstep
    case isTrue hsp =>
      split at hstep
      case isTrue hlen =>
        have hbne : b ≠ [] := by
          intro hnil
          rw [hnil] at hlen
          exact absurd hlen (by decide)
        split at hstep
        · rw [if_neg (by decide), if_neg (by decide)] at hstep
          cases hstep
          exact ⟨fun _ => by simp, hcmds, fun h => absurd h (by decide)⟩
        · split at hstep
          · cases hstep
            exact ⟨fun h => by rcases h with h | h <;> exact absurd h (by decide), hcmds,
              fun _ _ => hsp⟩
          split at hstep
          · cases hstep
            exact ⟨fun _ => toLower_ne_nil b hbne, hcmds,
              fun h => absurd h (by decide)⟩
          · cases hstep
            exact ⟨fun _ => toLower_ne_nil b hbne, hcmds,
              fun h => absurd h (by decide)⟩
      case isFalse =>
        cases hstep
        exact ⟨fun h => by rcases h with h | h <;> exact absurd h (by decide), hcmds,
          fun h => absurd h (by decide)⟩
    split at hstep
    · split at hstep
      · cases hstep
      · cases hstep
        exact ⟨fun h => by rcases h with h | h <;> exact absurd h (by decide), hcmds,
          fun h => absurd h (by decide)⟩
    · cases hstep
  case parameter =>
    split at hstep
    · cases hstep
      exact ⟨fun h => by rcases h with h | h <;> exact absurd h (by decide), hcmds,
        fun _ h => absurd h (by simp)⟩
    split at hstep
    case isTrue hsp =>
      cases hstep
      have hbne : b ≠ [] := by
        intro hnil
        rw [hparcur rfl hnil] at hsp
        cases hsp
      exact ⟨fun _ => toLower_ne_nil b hbne, hcmds, fun h => absurd h (by decide)⟩
    split at hstep
    · cases hstep
    · cases hstep
  case args =>
    split at hstep
    · cases hstep
      refine ⟨fun h => by rcases h with h | h <;> exact absurd h (by decide), ?_,
        fun h => absurd h (by decide)⟩
      intro rec hrec
      rcases List.mem_append.mp hrec with hm | hm
      · exact hcmds rec hm
      · rcases List.mem_singleton.mp hm with rfl
        exact hargs (Or.inl rfl)
    · cases hstep
      exact ⟨fun _ => hargs (Or.inl rfl), hcmds, fun h => absurd h (by decide)⟩
  case multiline =>
    cases hstep
    exact ⟨fun h => by rcases h with h | h <;> exact absurd h (by decide), hcmds,
      fun h => absurd h (by decide)⟩
  case message =>
    split at hstep
    · split at hstep
      · cases hstep
        exact ⟨fun _ => hargs (Or.inr rfl), hcmds, fun h => absurd h (by decide)⟩
      · cases hstep
    split at hstep
    · cases hstep
    · cases hstep
      exact ⟨fun _ => hargs (Or.inr rfl), hcmds, fun h => absurd h (by decide)⟩
  case comment =>
    split at hstep
    · cases hstep
      exact ⟨fun h => by rcases h with h | h <;> exact absurd h (by decide), hcmds,
        fun h => absurd h (by decide)⟩
    · cases hstep
      exact ⟨fun h => by rcases h with h | h <;> exact absurd h (by decide), hcmds,
        fun h => absurd h (by decide)⟩

/-- If the whole scan succeeds on an input without two consecutive
horizontal-whitespace characters, every record name is non-empty. -/
theorem loop_names_nonempty (cs : List Char) :
    ∀ (s : St) (b : List Char) (cmd : Command) (cmds out : List Command),
      noDoubleHWS cs = true →
      ((s = .args ∨ s = .message) → cmd.Name ≠ []) →
      (s = .parameter → b = [] → ∀ c cs', cs = c :: cs' → space c = false) →
      (∀ rec ∈ cmds, rec.Name ≠ []) →
      parseLoop s b cmd cmds cs = .ok out →
      ∀ rec ∈ out, rec.Name ≠ [] := by
  induction cs with
  | nil =>
      intro s b cmd cmds out hch hargs hpar hcmds h
      rw [parseLoop_nil] at h
      cases s <;> unfold trailing at h <;> split at h <;> (try dsimp only at h)
      case name.isTrue => cases h
      case name.isFalse => cases h; exact hcmds
      case args.isTrue =>
        cases h
        intro rec hrec
        rcases List.mem_append.mp hrec with hm | hm
        · exact hcmds rec hm
        · rcases List.mem_singleton.mp hm with rfl
          exact hargs (Or.inl rfl)
      case args.isFalse => cases h; exact hcmds
      case multiline.isTrue => cases h
      case multiline.isFalse => cases h; exact hcmds
      case parameter.isTrue => cases h
      case parameter.isFalse => cases h; exact hcmds
      case message.isTrue => cases h
      case message.isFalse => cases h; exact hcmds
      case comment.isTrue => cases h
      case comment.isFalse => cases h; exact hcmds
  | cons r rest ih =>
      intro s b cmd cmds out hch hargs hpar hcmds h
      rw [parseLoop_cons] at h
      cases hstep : step s b cmd cmds r with
      | err e => rw [hstep] at h; cases h
      | cont s' b' cmd' cmds' =>
          rw [hstep] at h
          dsimp only at h
          have hparcur : s = .parameter → b = [] → space r = false :=
            fun hs hb => hpar hs hb r rest rfl
          obtain ⟨hargs', hcmds', hsp⟩ :=
            step_preserves_nonempty s b cmd cmds r s' b' cmd' cmds' hargs hparcur hcmds hstep
          refine ih s' b' cmd' cmds' out (noDoubleHWS_cons r rest hch) hargs' ?_ hcmds' h
          intro hs' hb' c cs' hrest
          subst hrest
          exact noDoubleHWS_two r c cs' hch (hsp hs' hb')

/-- C3 counterexample: the claim says a completed record's name is never
empty; but `PARAMETER` followed by two spaces finalizes an empty
parameter key (the `case space(r)` arm of `stateParameter` has no
non-empty guard), so `FROM a\nPARAMETER  x\n` parses successfully and its
second record has the empty string as its name. -/
theorem empty_name_record_possible :
    Parse ("FROM a\nPARAMETER  x\n".data) =
      .ok [⟨"model".data, "a".data⟩, ⟨[], "x".data⟩] := by rfl

/-- C3 (amended): for every input on which `Parse` succeeds, every record
in the returned sequence has a non-empty name — provided no two
consecutive input characters are both horizontal whitespace (space/tab).
Without that proviso the invariant fails: a `PARAMETER` keyword followed
by two spaces yields a record whose name is the empty string. -/
theorem names_nonempty_amended (cs : List Char) (out : List Command)
    (hch : noDoubleHWS cs = true) (h : Parse cs = .ok out) :
    ∀ rec ∈ out, rec.Name ≠ [] :=
  loop_names_nonempty cs .name [] {} [] out hch
    (fun hc => by rcases hc with hc | hc <;> exact absurd hc (by decide))
    (fun hs => absurd hs (by decide))
    (by simp)
    (Parse_ok_loop cs out h)

/-- C3 witness: `FROM x` has no double whitespace; the single record it
produces has the non-empty name `model`. -/
theorem names_nonempty_amended_witness :
    (⟨"model".data, "x".data⟩ : Command).Name ≠ [] :=
  names_nonempty_amended ("FROM x".data) [⟨"model".data, "x".data⟩]
    (by decide) (by rfl) ⟨"model".data, "x".data⟩ (List.mem_singleton.mpr rfl)

/-!
## CRLF/LF equivalence
-/

theorem crlf_cons_lf (rest : List Char) :
    crlf ('\n' :: rest) = '\r' :: '\n' :: crlf rest := by
  simp [crlf]

theorem crlf_cons_ne (r : Char) (rest : List Char) (h : r ≠ '\n') :
    crlf (r :: rest) = r :: crlf rest := by
  simp [crlf, h]

/-- The loop never enters the (unreachable) multiline state. -/
theorem step_ne_multiline (s : St) (b : List Char) (cmd : Command) (cmds : List Command)
    (r : Char) (s' : St) (b' : List Char) (cmd' : Command) (cmds' : List Command)
    (hs : s ≠ .multiline)
    (hstep : step s b cmd cmds r = .cont s' b' cmd' cmds') : s' ≠ .multiline := by
  cases s
  case multiline => exact absurd rfl hs
  all_goals
    simp only [step] at hstep
  all_goals
    repeat' split at hstep
  all_goals
    cases hstep
  all_goals
    decide

/-- In every reachable (non-multiline) state, a CR behaves exactly like an
LF, and an LF following a line-terminating CR is a no-op; hence inserting
a CR before every LF does not change the scan. -/
theorem crlf_loop (cs : List Char) :
    ∀ (s : St) (b : List Char) (cmd : Command) (cmds : List Command),
      s ≠ .multiline →
      parseLoop s b cmd cmds (crlf cs) = parseLoop s b cmd cmds cs := by
  induction cs with
  | nil => intro s b cmd cmds _; rfl
  | cons r rest ih =>
      intro s b cmd cmds hs
      by_cases hr : r = '\n'
      · subst hr
        rw [crlf_cons_lf rest]
        cases s with
        | multiline => exact absurd rfl hs
        | name =>
          by_cases hb : b.length > 0
          · rw [parseLoop_cons, step_name_cr, if_pos hb,
              parseLoop_cons, step_name_lf, if_pos hb]
          · rw [parseLoop_cons, step_name_cr, if_neg hb]
            dsimp only
            rw [parseLoop_cons, step_name_lf, if_neg hb]
            dsimp only
            rw [parseLoop_cons, step_name_lf, if_neg hb]
            dsimp only
            exact ih .name b cmd cmds (by decide)
        | args =>
          rw [parseLoop_cons, step_args_cr]
          dsimp only
          rw [parseLoop_cons, step_name_lf, if_neg (by decide)]
          dsimp only
          rw [parseLoop_cons, step_args_lf]
          dsimp only
          exact ih .name [] {} (cmds ++ [{ cmd with Args := cmd.Args ++ b }]) (by decide)
        | parameter =>
          rw [parseLoop_cons, step_param_cr, parseLoop_cons, step_param_lf]
        | message =>
          rw [parseLoop_cons, step_msg_cr, parseLoop_cons, step_msg_lf]
        | comment =>
          rw [parseLoop_cons, step_comment_cr]
          dsimp only
          rw [parseLoop_cons, step_name_lf, if_neg (by decide)]
          dsimp only
          rw [parseLoop_cons, step_comment_lf]
          dsimp only
          exact ih .name [] {} cmds (by decide)
      · rw [crlf_cons_ne r rest hr, parseLoop_cons, parseLoop_cons]
        cases hstep : step s b cmd cmds r with
        | err e => rfl
        | cont s' b' cmd' cmds' =>
            dsimp only
            exact ih s' b' cmd' cmds'
              (step_ne_multiline s b cmd cmds r s' b' cmd' cmds' hs hstep)

/-- C10: for a document using bare LF line terminators (no CR anywhere),
replacing every LF by a CRLF pair yields exactly the same `Parse` result —
the CR completes the line and the following LF is a no-op newline in the
name state with an empty buffer. -/
theorem crlf_lf_equivalent (cs : List Char) (hcr : '\r' ∉ cs) :
    Parse (crlf cs) = Parse cs := by
  unfold Parse
  rw [crlf_loop cs .name [] {} [] (by decide)]

/-- C10 witness: the CRLF version of a small two-directive document
parses to the same result as the LF version. -/
theorem crlf_lf_equivalent_witness :
    Parse (crlf ("FROM a\nTEMPLATE x\n".data)) = Parse ("FROM a\nTEMPLATE x\n".data) :=
  crlf_lf_equivalent ("FROM a\nTEMPLATE x\n".data) (by decide)

/-!
## The quoted-value contract (spec-modelled scanner)
-/

theorem qloop_args_open (cmd : Command) (cmds : List Command) (rest : List Char) :
    parseLoopQ .args [] cmd cmds ('"' :: '"' :: '"' :: rest) =
      parseLoopQ .multiline [] cmd cmds rest := rfl

theorem qloop_ml_close (b : List Char) (cmd : Command) (cmds : List Command)
    (rest : List Char) :
    parseLoopQ .multiline b cmd cmds ('"' :: '"' :: '"' :: rest) =
      parseLoopQ .name [] {} (cmds ++ [{ cmd with Args := cmd.Args ++ b }]) rest := rfl

theorem qloop_ml_step (b : List Char) (cmd : Command) (cmds : List Command) (r : Char)
    (rest : List Char) (h : startsTriple (r :: rest) = false) :
    parseLoopQ .multiline b cmd cmds (r :: rest) =
      parseLoopQ .multiline (b ++ [r]) cmd cmds rest := by
  rw [parseLoopQ.eq_def]
  split
  · rename_i heq
    simp at heq
  · rename_i x rest3 heq
    cases heq
    simp [startsTriple] at h
  · rename_i x r2 rest2 hno heq
    cases heq
    rfl

/-- Input exhausted inside a quoted value with no closing delimiter in
sight: the unterminated-quote error. -/
theorem qloop_ml_unterminated (v : List Char) :
    ∀ (b : List Char) (cmd : Command) (cmds : List Command),
      hasTriple v = false →
      parseLoopQ .multiline b cmd cmds v = .error .unterminatedMultiline := by
  induction v with
  | nil => intro b cmd cmds _; rfl
  | cons c v' ih =>
      intro b cmd cmds h
      simp only [hasTriple, Bool.or_eq_false_iff] at h
      rw [qloop_ml_step b cmd cmds c v' h.1]
      exact ih (b ++ [c]) cmd cmds h.2

theorem startsTriple_two_quotes (c : Char) (v t : List Char) :
    startsTriple (c :: (v ++ ('"' :: '"' :: t))) = startsTriple (c :: (v ++ ['"', '"'])) := by
  cases v with
  | nil => simp [startsTriple]
  | cons d v' =>
      cases v' with
      | nil => simp [startsTriple]
      | cons e v'' => simp [startsTriple]

/-- A quoted-value body runs to its closing delimiter: every character of
`v` (newlines included) is captured verbatim, the closing `"""` is
discarded, and the record is completed. -/
theorem qloop_ml_run (v : List Char) :
    ∀ (b : List Char) (cmd : Command) (cmds : List Command) (rest : List Char),
      hasTriple (v ++ ['"', '"']) = false →
      parseLoopQ .multiline b cmd cmds (v ++ ('"' :: '"' :: '"' :: rest)) =
        parseLoopQ .name [] {} (cmds ++ [{ cmd with Args := cmd.Args ++ (b ++ v) }]) rest := by
  induction v with
  | nil =>
      intro b cmd cmds rest _
      rw [List.nil_append, qloop_ml_close]
      simp
  | cons c v' ih =>
      intro b cmd cmds rest h
      rw [List.cons_append] at h
      simp only [hasTriple, Bool.or_eq_false_iff] at h
      have hst : startsTriple (c :: (v' ++ ('"' :: '"' :: '"' :: rest))) = false := by
        rw [startsTriple_two_quotes c v' ('"' :: rest)]
        exact h.1
      rw [List.cons_append, qloop_ml_step b cmd cmds c _ hst]
      rw [ih (b ++ [c]) cmd cmds rest h.2]
      simp

/-- C1: a value that begins, immediately after the separating whitespace,
with three consecutive double quotes is captured in quoted mode — the
spec-modelled scanner (the quote logic is a `TODO` stub in the source)
discards the two triple-quote delimiters, captures every interior
character of `v` verbatim (newlines included — no newline terminates the
record), and completes the record with value exactly `v`; in particular
`FROM foo\nTEMPLATE """a b"""\n` yields the records
`(model, foo), (template, "a b")`. -/
theorem quoted_value_capture :
    (∀ (cmd : Command) (cmds : List Command) (v rest : List Char),
      hasTriple (v ++ ['"', '"']) = false →
      parseLoopQ .args [] cmd cmds ('"' :: '"' :: '"' :: (v ++ ('"' :: '"' :: '"' :: rest))) =
        parseLoopQ .name [] {} (cmds ++ [{ cmd with Args := cmd.Args ++ v }]) rest)
    ∧ ParseQ ("FROM foo\nTEMPLATE \"\"\"a b\"\"\"\n".data) =
        .ok [⟨"model".data, "foo".data⟩, ⟨"template".data, "a b".data⟩] := by
  refine ⟨?_, by rfl⟩
  intro cmd cmds v rest hv
  rw [qloop_args_open, qloop_ml_run v [] cmd cmds rest hv]
  simp

/-- C1 witness: capturing `a b` between triple-quote delimiters completes
the pending `template` record with value exactly `a b`. -/
theorem quoted_value_capture_witness :
    parseLoopQ .args [] ⟨"template".data, []⟩ []
        ('"' :: '"' :: '"' :: (("a b".data) ++ ('"' :: '"' :: '"' :: []))) =
      parseLoopQ .name [] {}
        ([] ++ [⟨"template".data, ([] : List Char) ++ ("a b".data)⟩]) [] :=
  quoted_value_capture.1 ⟨"template".data, []⟩ [] ("a b".data) [] (by decide)

/-- C2: a triple-quoted value opened but never closed — the input ends
while the spec-modelled scanner is still in quoted mode, i.e. the
remaining input contains no triple-quote delimiter — makes the scan fail
with the error whose text is `unterminated multiline string`; no record
list (truncated or otherwise) is returned. -/
theorem unterminated_quote_error :
    (∀ (b : List Char) (cmd : Command) (cmds : List Command) (v : List Char),
      hasTriple v = false →
      parseLoopQ .multiline b cmd cmds v = .error .unterminatedMultiline)
    ∧ ParseQ ("FROM foo\nTEMPLATE \"\"\"a b\"\"".data) = .error .unterminatedMultiline
    ∧ errMsg .unterminatedMultiline = ("unterminated multiline string".data) := by
  refine ⟨?_, by rfl, rfl⟩
  intro b cmd cmds v hv
  exact qloop_ml_unterminated v b cmd cmds hv

/-- C2 witness: a quoted value whose remaining input `a b""` never closes
the delimiter ends in the unterminated-quote error. -/
theorem unterminated_quote_error_witness :
    parseLoopQ .multiline [] {} [] ("a b\"\"".data) = .error .unterminatedMultiline :=
  unterminated_quote_error.1 [] {} [] ("a b\"\"".data) (by decide)

end Modelfile
